import Mathlib

/-!
Verification development for the `bf6-portal-bundler` repository
(`src/index.js`).  The bundler walks a TypeScript dependency graph from an
entry file, concatenates all reachable files with import statements removed,
and merges sibling `strings.json` resource documents.

The JavaScript source is shallowly embedded below:

* paths and file contents are `List Char`;
* the filesystem is a finite association list (`FS`);
* the regexes of `src/index.js` (the import scanner on line 93 and the four
  cleanup regexes on lines 197-209) are embedded via a small backtracking
  pattern engine (`Pat`) whose alternatives/lazy/greedy priorities mirror
  JavaScript regex semantics for exactly the constructs those regexes use
  (every quantifier in them ranges over a single-character class);
* `resolveImport`, `walk`, `processStrings` and `build` are translated
  function by function; `walk` is given explicit fuel (the JavaScript
  recursion terminates because `visited` grows, and `walk` below is run with
  fuel strictly larger than the number of files, which the lemmas show is
  enough);
* platform primitives (`path.resolve`, `path.dirname`, `JSON.parse`,
  `JSON.stringify`, `fs.readdirSync`) are modelled: path joining with
  segment normalisation, and resource files carry their parse result
  directly (`Option Json`, `none` standing for invalid JSON) so that the
  out-of-scope JSON grammar does not have to be embedded.
-/

/-- Absolute or relative file path of the bundler model, as a list of characters. -/
abbrev FPath := List Char

/-- Character code 39, the single-quote character used by the source regexes. -/
def quoteA : Char := Char.ofNat 39

/-- Character class of JavaScript regex `\s` (ASCII part). -/
def isWS (c : Char) : Bool :=
  c = ' ' || c = '\t' || c = '\n' || c = '\r' || c.toNat = 11 || c.toNat = 12

/-- Character class of JavaScript regex `[\s\S]` (any character). -/
def isAnyC (_ : Char) : Bool := true

/-- Character class of JavaScript regex `.` (anything but a line terminator). -/
def isDotC (c : Char) : Bool := !(c = '\n' || c = '\r')

/-- Character class of JavaScript regex `['"]`. -/
def isQuoteC (c : Char) : Bool := c = quoteA || c = '"'

/-- Character class of the literal `;` (for the trailing `;?`). -/
def isSemiC (c : Char) : Bool := c = ';'

/-!
## Pattern engine

`Pat` is an abstract syntax for the exact regex constructs appearing in
`src/index.js`: literals, single-character classes, lazy star / greedy star /
greedy plus / greedy option over a class, capture groups, sequencing and
(prioritised) alternation.
-/

/-- Abstract syntax of the regex fragment used by `src/index.js`. -/
inductive Pat where
  | lit (cs : List Char)
  | cls (p : Char → Bool)
  | starL (p : Char → Bool)
  | starG (p : Char → Bool)
  | plusG (p : Char → Bool)
  | optG (p : Char → Bool)
  | grp (n : Nat) (q : Pat)
  | seq (a b : Pat)
  | alt (a b : Pat)

/-- Remainders after a lazy star over class `p`, shortest consumption first. -/
def starLRem (p : Char → Bool) : List Char → List (List Char)
  | [] => [[]]
  | c :: r => (c :: r) :: (if p c then starLRem p r else [])

/-- Remainders after a greedy star over class `p`, longest consumption first. -/
def starGRem (p : Char → Bool) (s : List Char) : List (List Char) :=
  (starLRem p s).reverse

/-- Remainders after a greedy plus over class `p`, longest consumption first. -/
def plusGRem (p : Char → Bool) : List Char → List (List Char)
  | [] => []
  | c :: r => if p c then starGRem p r else []

/-- Remainders after a greedy option over class `p` (consume-one preferred). -/
def optGRem (p : Char → Bool) : List Char → List (List Char)
  | [] => [[]]
  | c :: r => if p c then [r, c :: r] else [c :: r]

/-- Captured groups of one match: group number paired with captured text. -/
abbrev Caps := List (Nat × List Char)

/-- Backtracking matcher: all ways `pat` can match a prefix of `s`, returned
as (remaining suffix, captures) in JavaScript backtracking priority order.
The head of the list is the match the JavaScript engine commits to. -/
def Pat.mtch : Pat → List Char → List (List Char × Caps)
  | .lit cs, s => if cs.isPrefixOf s then [(s.drop cs.length, [])] else []
  | .cls p, s =>
    match s with
    | c :: r => if p c then [(r, [])] else []
    | [] => []
  | .starL p, s => (starLRem p s).map (fun r => (r, []))
  | .starG p, s => (starGRem p s).map (fun r => (r, []))
  | .plusG p, s => (plusGRem p s).map (fun r => (r, []))
  | .optG p, s => (optGRem p s).map (fun r => (r, []))
  | .grp n q, s =>
    (q.mtch s).map (fun pr => (pr.1, pr.2 ++ [(n, s.take (s.length - pr.1.length))]))
  | .seq a b, s =>
    (a.mtch s).flatMap (fun pr => (b.mtch pr.1).map (fun pr2 => (pr2.1, pr.2 ++ pr2.2)))
  | .alt a b, s => a.mtch s ++ b.mtch s

/-- The committed match of `pat` at the start of `s`, if any: number of
characters consumed and the captures. -/
def firstMatch (pat : Pat) (s : List Char) : Option (Nat × Caps) :=
  match (pat.mtch s).head? with
  | some (r, g) => some (s.length - r.length, g)
  | none => none

/-- Global regex replacement by the empty string, as performed by
`String.prototype.replace(/re/g, '')`: repeatedly find the leftmost match,
drop it, and continue after it.  (A zero-length match keeps the character
and advances, as in JavaScript; the patterns below never match zero
characters.) -/
def replaceAux (pat : Pat) : Nat → List Char → List Char
  | 0, s => s
  | _ + 1, [] => []
  | fuel + 1, c :: rest =>
    match firstMatch pat (c :: rest) with
    | none => c :: replaceAux pat fuel rest
    | some (k, _) =>
      if k = 0 then c :: replaceAux pat fuel rest
      else replaceAux pat fuel ((c :: rest).drop k)

/-- Global replacement entry point: every scan step consumes at least one
character, so `s.length` steps always suffice and the fuelled scan below
never exhausts its fuel. -/
def replaceAllL (pat : Pat) (s : List Char) : List Char := replaceAux pat s.length s

/-- Global scan collecting, for every successive leftmost match, the captures
of that match, as the `while ((match = importRegex.exec(content)))` loop of
`walk` (src/index.js line 97) does. -/
def execAux (pat : Pat) : Nat → List Char → List Caps
  | 0, _ => []
  | _ + 1, [] => []
  | fuel + 1, c :: rest =>
    match firstMatch pat (c :: rest) with
    | none => execAux pat fuel rest
    | some (k, g) =>
      if k = 0 then execAux pat fuel rest
      else g :: execAux pat fuel ((c :: rest).drop k)

/-- Global exec entry point; as for `replaceAllL`, `s.length` steps suffice. -/
def execAllL (pat : Pat) (s : List Char) : List Caps := execAux pat s.length s

/-!
## The concrete regexes of `src/index.js`

Import scanner (line 93):
`/import\s+(?:[\s\S]*?from\s+|)(?:['"](.*?)['"])|import\s+[\s\S]*?=\s*require\(['"](.*?)['"]\)/g`

Cleanup regexes of `build` (lines 197, 201, 205, 209):
1. `/import\s[\s\S]*?from\s*['"].*?['"];?/g`
2. `/import\s*['"].*?['"];?/g`
3. `/import\s[\s\S]*?=\s*require\([\s\S]*?\);?/g`
4. `/export\s[\s\S]*?from\s*['"].*?['"];?/g`
-/

/-- Embeds the import-scanning regex of `walk` (src/index.js line 93). -/
def importRegex : Pat :=
  .alt
    (.seq (.lit "import".data)
      (.seq (.plusG isWS)
        (.seq (.alt (.seq (.starL isAnyC) (.seq (.lit "from".data) (.plusG isWS))) (.lit []))
          (.seq (.cls isQuoteC) (.seq (.grp 1 (.starL isDotC)) (.cls isQuoteC))))))
    (.seq (.lit "import".data)
      (.seq (.plusG isWS)
        (.seq (.starL isAnyC)
          (.seq (.lit "=".data)
            (.seq (.starG isWS)
              (.seq (.lit "require(".data)
                (.seq (.cls isQuoteC)
                  (.seq (.grp 2 (.starL isDotC)) (.seq (.cls isQuoteC) (.lit ")".data))))))))))

/-- Embeds cleanup regex 1 (src/index.js line 197): standard imports. -/
def stripRe1 : Pat :=
  .seq (.lit "import".data)
    (.seq (.cls isWS)
      (.seq (.starL isAnyC)
        (.seq (.lit "from".data)
          (.seq (.starG isWS)
            (.seq (.cls isQuoteC)
              (.seq (.starL isDotC) (.seq (.cls isQuoteC) (.optG isSemiC))))))))

/-- Embeds cleanup regex 2 (src/index.js line 201): side-effect imports. -/
def stripRe2 : Pat :=
  .seq (.lit "import".data)
    (.seq (.starG isWS)
      (.seq (.cls isQuoteC)
        (.seq (.starL isDotC) (.seq (.cls isQuoteC) (.optG isSemiC)))))

/-- Embeds cleanup regex 3 (src/index.js line 205): TS require imports. -/
def stripRe3 : Pat :=
  .seq (.lit "import".data)
    (.seq (.cls isWS)
      (.seq (.starL isAnyC)
        (.seq (.lit "=".data)
          (.seq (.starG isWS)
            (.seq (.lit "require(".data)
              (.seq (.starL isAnyC) (.seq (.lit ")".data) (.optG isSemiC))))))))

/-- Embeds cleanup regex 4 (src/index.js line 209): wildcard re-exports. -/
def stripRe4 : Pat :=
  .seq (.lit "export".data)
    (.seq (.cls isWS)
      (.seq (.starL isAnyC)
        (.seq (.lit "from".data)
          (.seq (.starG isWS)
            (.seq (.cls isQuoteC)
              (.seq (.starL isDotC) (.seq (.cls isQuoteC) (.optG isSemiC))))))))

/-- Embeds `const importPath = match[1] || match[2]` followed by
`if (!importPath) continue` (src/index.js lines 98-100): the first
non-empty capture of groups 1 and 2, if any. -/
def capImport (g : Caps) : Option (List Char) :=
  match g.lookup 1 with
  | some (c :: cs) => some (c :: cs)
  | _ =>
    match g.lookup 2 with
    | some (c :: cs) => some (c :: cs)
    | _ => none

/-- The import specifiers extracted from a file body by the regex-exec loop
of `walk` (src/index.js lines 93-100), in file order. -/
def extractImports (content : List Char) : List FPath :=
  (execAllL importRegex content).filterMap capImport

/-- Embeds the cleanup-regex pipeline of `build` (src/index.js lines
197-209): the four global replacements applied in source order. -/
def strip (content : List Char) : List Char :=
  replaceAllL stripRe4 (replaceAllL stripRe3 (replaceAllL stripRe2 (replaceAllL stripRe1 content)))

/-!
## Path primitives

Models of the Node `path` functions used by the source (external
collaborators per the specification): `path.resolve` joins against an
absolute base and normalises `.`, `..` and empty segments; `path.dirname`
and `path.join` behave as in Node for the clean inputs the bundler uses.
-/

/-- Splits a path at every `/` character. -/
def splitSlash : List Char → List (List Char)
  | [] => [[]]
  | c :: r =>
    if c = '/' then [] :: splitSlash r
    else
      match splitSlash r with
      | f :: fs => (c :: f) :: fs
      | [] => [[c]]

/-- Segment normalisation of `path.resolve`: drops empty and `.` segments,
`..` pops the previous segment. -/
def normSegs (acc : List (List Char)) : List (List Char) → List (List Char)
  | [] => acc.reverse
  | s :: rest =>
    if s = [] || s = ['.'] then normSegs acc rest
    else if s = ['.', '.'] then normSegs (acc.drop 1) rest
    else normSegs (s :: acc) rest

/-- Renders an absolute path from its segments. -/
def renderAbs (segs : List (List Char)) : FPath :=
  match segs with
  | [] => ['/']
  | _ => segs.foldl (fun acc s => acc ++ '/' :: s) []

/-- Model of `path.resolve(dir, rel)` for an absolute `dir`. -/
def pathResolve (dir rel : FPath) : FPath :=
  let s := if rel.head? = some '/' then rel else dir ++ '/' :: rel
  renderAbs (normSegs [] (splitSlash s))

/-- Model of `path.dirname`. -/
def dirname (p : FPath) : FPath :=
  match p.reverse.dropWhile (fun c => !(c = '/')) with
  | [] => ['.']
  | [_] => ['/']
  | _ :: rest => rest.reverse

/-- Model of `path.basename` (used to present `readdirSync` entries). -/
def basename (p : FPath) : FPath :=
  (p.reverse.takeWhile (fun c => !(c = '/'))).reverse

/-- Model of `path.join(dir, name)` for a clean relative `name`. -/
def pathJoin (dir name : FPath) : FPath := dir ++ '/' :: name

/-- Model of `path.relative(root, p)` for the paths the bundler prints:
strips the `root/` prefix when present. -/
def relPath (root p : FPath) : FPath :=
  if (root ++ ['/']).isPrefixOf p then p.drop (root.length + 1) else p

/-!
## Filesystem model and configuration
-/

/-- Parsed JSON value (the result of `JSON.parse` on a resource file). -/
inductive Json where
  | null
  | bool (b : Bool)
  | num (n : Int)
  | str (s : List Char)
  | arr (elems : List Json)
  | obj (fields : List (List Char × Json))

instance : Inhabited Json := ⟨Json.null⟩

/-- Content of one on-disk file: a TypeScript source body, or a resource
file carrying its `JSON.parse` result directly (`none` = invalid JSON);
JSON parsing is a platform primitive and is abstracted this way. -/
inductive FileData where
  | src (text : List Char)
  | res (doc : Option Json)

/-- The filesystem: a finite map from absolute paths to file contents. -/
structure FS where
  files : List (FPath × FileData)

/-- Embeds `fs.existsSync(p) && fs.statSync(p).isFile()`. -/
def existsFile (fs : FS) (p : FPath) : Bool :=
  (fs.files.map Prod.fst).contains p

/-- Embeds `fs.readFileSync(p, 'utf8')` on a source file (the walker and
the bundle assembler only read files they resolved on disk). -/
def readText (fs : FS) (p : FPath) : List Char :=
  match fs.files.lookup p with
  | some (.src t) => t
  | _ => []

/-- Embeds `JSON.parse(fs.readFileSync(p, 'utf8'))` on a resource file:
`some j` on success, `none` when the file is missing or not valid JSON. -/
def readJson (fs : FS) (p : FPath) : Option Json :=
  match fs.files.lookup p with
  | some (.res d) => d
  | _ => none

/-- Embeds `fs.readdirSync(dir)`: the names of the files whose directory
is `dir`, in filesystem order. -/
def readdir (fs : FS) (dir : FPath) : List FPath :=
  ((fs.files.map Prod.fst).filter (fun p => dirname p = dir)).map basename

/-- Embeds the `EXTERNAL_MODULES` configuration constant
(src/index.js line 7). -/
def EXTERNAL_MODULES : List FPath := ["mod".data]

/-- Embeds the build configuration produced by `parseArgs`
(src/index.js lines 10-42). -/
structure Config where
  entryFile : FPath
  outputFile : FPath
  outputStringsFile : FPath
  projectRoot : FPath

/-- Embeds the `extensions` candidate list of `resolveImport`
(src/index.js line 66). -/
def extensions : List (List Char) := [".ts".data, "/index.ts".data, ".d.ts".data]

/-- Embeds the extension-probing loop of `resolveImport`
(src/index.js lines 72-76). -/
def tryExts (fs : FS) (targetPath : FPath) : List (List Char) → Option FPath
  | [] => none
  | e :: rest =>
    if existsFile fs (targetPath ++ e) then some (targetPath ++ e)
    else tryExts fs targetPath rest

/-- Warning record printed by `console.warn` in `resolveImport`
(src/index.js line 78): the import specifier and the importing directory. -/
abbrev Warning := FPath × FPath

/-- Embeds `resolveImport(importPath, currentFileDir)` (src/index.js lines
51-81).  `targetOf` is the `targetPath` computed on lines 54-63; the first
component of `resolveImport` is the returned path (`none` for both the
ignored-external and the unresolved case, as in the source); the second
component is the list of warnings the call prints. -/
def targetOf (cfg : Config) (importPath currentFileDir : FPath) : FPath :=
  if importPath.head? = some '.' then pathResolve currentFileDir importPath
  else pathResolve (pathResolve cfg.projectRoot "node_modules".data) importPath

def resolveImport (fs : FS) (cfg : Config) (importPath currentFileDir : FPath) :
    Option FPath × List Warning :=
  if importPath ∈ EXTERNAL_MODULES then (none, [])
  else if existsFile fs (targetOf cfg importPath currentFileDir) then
    (some (targetOf cfg importPath currentFileDir), [])
  else
    match tryExts fs (targetOf cfg importPath currentFileDir) extensions with
    | some appended => (some appended, [])
    | none => (none, [(importPath, currentFileDir)])

/-- True exactly on paths ending in the declaration-only extension, as
tested by `absolutePath.endsWith('.d.ts')` (src/index.js line 105). -/
def isDecl (p : FPath) : Bool := ".d.ts".data.isSuffixOf p

/-- Walker state: the `visited` set, the `buildOrder` list (src/index.js
lines 45-48) and the warnings printed so far. -/
structure WalkSt where
  visited : List FPath
  order : List FPath
  warns : List Warning

/-- Embeds the import-processing loop inside `walk` (src/index.js lines
97-108), parameterised by the recursive `walk` call `wrec` applied to
resolved non-declaration files.  The source's `st1` (the state after the
warning of `resolveImport` is printed) is written out in each branch. -/
def walkImportsF (fs : FS) (cfg : Config) (wrec : FPath → WalkSt → WalkSt) :
    List FPath → FPath → WalkSt → WalkSt
  | [], _, st => st
  | spec :: rest, dir, st =>
    walkImportsF fs cfg wrec rest dir
      (match (resolveImport fs cfg spec dir).1 with
        | some ap =>
          if isDecl ap then { st with warns := st.warns ++ (resolveImport fs cfg spec dir).2 }
          else wrec ap { st with warns := st.warns ++ (resolveImport fs cfg spec dir).2 }
        | none => { st with warns := st.warns ++ (resolveImport fs cfg spec dir).2 })

/-- Embeds the recursive `walk(filePath)` (src/index.js lines 84-113) with
explicit fuel.  With fuel at least `fs.files.length + 1` the fuel never runs
out (`walkP_all` below), so the fuelled function agrees with the JavaScript
recursion. -/
def walkAux (fs : FS) (cfg : Config) : Nat → FPath → WalkSt → WalkSt
  | 0, _, st => st
  | Nat.succ fuel, p, st =>
    if p ∈ st.visited then st
    else
      let st1 := { st with visited := p :: st.visited }
      let specs := extractImports (readText fs p)
      let st2 := walkImportsF fs cfg (walkAux fs cfg fuel) specs (dirname p) st1
      { st2 with order := st2.order ++ [p] }

/-- The import-processing loop at a given fuel, recursing via `walkAux`. -/
def walkImports (fs : FS) (cfg : Config) (fuel : Nat) :
    List FPath → FPath → WalkSt → WalkSt :=
  walkImportsF fs cfg (walkAux fs cfg fuel)

/-- The fuel `walk` is run with: strictly more than the number of files. -/
def totalFuel (fs : FS) : Nat := fs.files.length + 1

/-- The full graph walk from a root, as performed by `walk(ENTRY_FILE)`
(src/index.js line 174) starting from empty `visited` and `buildOrder`. -/
def walk (fs : FS) (cfg : Config) (entry : FPath) : WalkSt :=
  walkAux fs cfg (totalFuel fs) entry ⟨[], [], []⟩

/-!
## Resource merging (`processStrings`) and the main build
-/

/-- Order-preserving deduplication (first occurrence kept), the iteration
behaviour of the JavaScript `Set`s used for the directory set
(src/index.js line 125) and `processedJsonFiles` (line 122). -/
def dedupF (seen : List FPath) : List FPath → List FPath
  | [] => []
  | a :: l => if a ∈ seen then dedupF seen l else a :: dedupF (a :: seen) l

/-- Merge error: a duplicate top-level key (with the conflicting document's
path, src/index.js lines 146-150) or a JSON parse failure (lines 155-157). -/
inductive MergeErr where
  | dupKey (key : List Char) (path : FPath)
  | parseFail (path : FPath)

/-- The top-level fields of a parsed resource document, as enumerated by
`Object.keys(fileContent)` (src/index.js line 144). -/
def topFields : Json → List (List Char × Json)
  | .obj fields => fields
  | _ => []

/-- Embeds `Object.prototype.hasOwnProperty.call(mergedStrings, key)`
(src/index.js line 145). -/
def hasKey (acc : List (List Char × Json)) (k : List Char) : Bool :=
  (acc.map Prod.fst).contains k

/-- Embeds the inner key loop of `processStrings` (src/index.js lines
144-154): insert each top-level key of one document, aborting on the first
key already present in the accumulator. -/
def mergeKeys (jsonPath : FPath) (acc : List (List Char × Json)) :
    List (List Char × Json) → Except MergeErr (List (List Char × Json))
  | [] => .ok acc
  | (k, v) :: rest =>
    if hasKey acc k then .error (.dupKey k jsonPath)
    else mergeKeys jsonPath (acc ++ [(k, v)]) rest

/-- Embeds the document loop of `processStrings` (src/index.js lines
131-159): parse and merge each resource document in turn; a parse failure
or key conflict aborts. -/
def mergeDocs (acc : List (List Char × Json)) :
    List (FPath × Option Json) → Except MergeErr (List (List Char × Json))
  | [] => .ok acc
  | (p, none) :: _ => .error (.parseFail p)
  | (p, some j) :: rest =>
    match mergeKeys p acc (topFields j) with
    | .error e => .error e
    | .ok acc2 => mergeDocs acc2 rest

/-- The resource documents `processStrings` processes, in processing order
(src/index.js lines 124-141): for each distinct directory of `buildOrder`
(insertion order), every sibling file whose name ends in `strings.json`,
each distinct path taken once, paired with its parse result. -/
def collectDocs (fs : FS) (order : List FPath) : List (FPath × Option Json) :=
  let dirs := dedupF [] (order.map dirname)
  let paths := dirs.flatMap (fun dir =>
    ((readdir fs dir).filter (fun f => "strings.json".data.isSuffixOf f)).map (pathJoin dir))
  (dedupF [] paths).map (fun p => (p, readJson fs p))

/-- Embeds `processStrings()` (src/index.js lines 116-163). -/
def processStrings (fs : FS) (order : List FPath) :
    Except MergeErr (List (List Char × Json)) :=
  mergeDocs [] (collectDocs fs order)

/-- Fatal build failure: missing entry file (src/index.js lines 169-172)
or a resource-merge abort (lines 150, 157). -/
inductive BuildError where
  | entryMissing
  | merge (e : MergeErr)

/-- Payload of one `fs.writeFileSync` call: the merged resource document
(line 181, `JSON.stringify` abstracted) or the bundled text (line 217). -/
inductive WriteData where
  | strings (doc : List (List Char × Json))
  | bundle (text : List Char)

/-- Result of one `build()` run: the final outcome, the file writes
performed in program order, and the warnings printed. -/
structure BuildResult where
  result : Except BuildError (List (List Char × Json))
  writes : List (FPath × WriteData)
  warns : List Warning

/-- Embeds the concatenation loop of `build` (src/index.js lines 184-214)
followed by `finalOutput.join('\n')` (line 217): banner, then per file a
source annotation, the cleaned body, and a blank separator. -/
def bundleText (fs : FS) (cfg : Config) (order : List FPath) : List Char :=
  let pieces :=
    ["// --- BUNDLED TYPESCRIPT OUTPUT ---".data, "// @ts-nocheck".data, []] ++
      order.flatMap (fun p =>
        ["// --- SOURCE: ".data ++ relPath cfg.projectRoot p ++ " ---".data,
          strip (readText fs p), []])
  List.intercalate ['\n'] pieces

/-- Embeds `build()` (src/index.js lines 166-222): entry check, walk,
resource merge, then the two artifact writes.  Every fatal exit in the
source happens before the first `writeFileSync`, which is why the error
branches carry no writes. -/
def build (fs : FS) (cfg : Config) : BuildResult :=
  if ¬ existsFile fs cfg.entryFile then
    { result := .error .entryMissing, writes := [], warns := [] }
  else
    let st := walk fs cfg cfg.entryFile
    match processStrings fs st.order with
    | .error e => { result := .error (.merge e), writes := [], warns := st.warns }
    | .ok merged =>
      { result := .ok merged
        writes := [(cfg.outputStringsFile, .strings merged),
          (cfg.outputFile, .bundle (bundleText fs cfg st.order))]
        warns := st.warns }

/-!
## Derived notions used by the specification statements
-/

/-- Position of the first occurrence of `x` in a list (length if absent). -/
def idxOf (x : FPath) : List FPath → Nat
  | [] => 0
  | y :: t => if y = x then 0 else idxOf x t + 1

/-- True when `pat` has a match starting at some position of `s` (the
condition under which a global replace changes the text). -/
def hasMatch (pat : Pat) : List Char → Bool
  | [] => false
  | c :: rest => (firstMatch pat (c :: rest)).isSome || hasMatch pat rest

/-- The resolved non-declaration dependencies of file `u`: the import
specifiers of its text, resolved exactly as the walker does (src/index.js
lines 97-107), keeping those that map to a file not ending in `.d.ts`. -/
def depsOf (fs : FS) (cfg : Config) (u : FPath) : List FPath :=
  (extractImports (readText fs u)).filterMap (fun spec =>
    match (resolveImport fs cfg spec (dirname u)).1 with
    | some ap => if isDecl ap then none else some ap
    | none => none)

/-- Dependency edge: `w` is a resolved non-declaration import of `u`. -/
def Edge (fs : FS) (cfg : Config) (u w : FPath) : Prop := w ∈ depsOf fs cfg u

instance (fs : FS) (cfg : Config) (u w : FPath) : Decidable (Edge fs cfg u w) :=
  inferInstanceAs (Decidable (w ∈ depsOf fs cfg u))

/-- Reachability along dependency edges (reflexive-transitive closure). -/
def Reaches (fs : FS) (cfg : Config) : FPath → FPath → Prop :=
  Relation.ReflTransGen (Edge fs cfg)

/-- Number of existing files not yet visited (the walker's termination
measure). -/
def cardUndisc (fs : FS) (vis : List FPath) : Nat :=
  ((fs.files.map Prod.fst).toFinset \ vis.toFinset).card

/-- Relation between walker states before and after a call: the visited set
grows, and the build order grows by previously unvisited, pairwise distinct
paths that are visited afterwards. -/
def DeltaSpec (st st2 : WalkSt) : Prop :=
  (∀ x ∈ st.visited, x ∈ st2.visited) ∧
  ∃ Δ, st2.order = st.order ++ Δ ∧ (∀ x ∈ Δ, x ∉ st.visited) ∧ Δ.Nodup ∧
    (∀ x ∈ Δ, x ∈ st2.visited)

/-- Ordering invariant of the build order: every dependency that cannot
reach back to its importer is recorded strictly earlier. -/
def OrdInv (fs : FS) (cfg : Config) (o : List FPath) : Prop :=
  ∀ u ∈ o, ∀ w, Edge fs cfg u w → ¬ Reaches fs cfg w u →
    w ∈ o ∧ idxOf w o < idxOf u o

/-- Walker state invariant: the order has no duplicates, is contained in
the visited set, every recorded file's dependencies are visited, and the
ordering invariant holds. -/
def WInv (fs : FS) (cfg : Config) (st : WalkSt) : Prop :=
  st.order.Nodup ∧ (∀ x ∈ st.order, x ∈ st.visited) ∧
  (∀ u ∈ st.order, ∀ w, Edge fs cfg u w → w ∈ st.visited) ∧
  OrdInv fs cfg st.order

/-- Every in-progress path (visited but not yet recorded) reaches `p`: the
in-progress paths are exactly the recursion ancestors of the current call. -/
def InProgressReaches (fs : FS) (cfg : Config) (st : WalkSt) (p : FPath) : Prop :=
  ∀ a ∈ st.visited, a ∉ st.order → Reaches fs cfg a p

/-- Postcondition of a sufficient-fuel `walkAux` call on `p`. -/
def WalkConc (fs : FS) (cfg : Config) (st st2 : WalkSt) (p : FPath) : Prop :=
  (∀ x ∈ st.visited, x ∈ st2.visited) ∧
  (∃ Δ, st2.order = st.order ++ Δ ∧ ∀ x ∈ Δ, x ∉ st.visited) ∧
  WInv fs cfg st2 ∧ p ∈ st2.visited ∧
  (∀ a ∈ st2.visited, a ∉ st2.order → a ∈ st.visited ∧ a ∉ st.order)

/-- Postcondition of a sufficient-fuel `walkImports` call processing
`specs` on behalf of importer `p`. -/
def ImportsConc (fs : FS) (cfg : Config) (st st2 : WalkSt) (p : FPath)
    (specs : List FPath) : Prop :=
  (∀ x ∈ st.visited, x ∈ st2.visited) ∧
  (∃ Δ, st2.order = st.order ++ Δ ∧ ∀ x ∈ Δ, x ∉ st.visited) ∧
  WInv fs cfg st2 ∧
  (∀ a ∈ st2.visited, a ∉ st2.order → a ∈ st.visited ∧ a ∉ st.order) ∧
  (∀ s ∈ specs, ∀ ap, (resolveImport fs cfg s (dirname p)).1 = some ap →
    isDecl ap = false → ap ∈ st2.visited)

/-- Statement family for `walkAux` at a given fuel. -/
def WalkP (fs : FS) (cfg : Config) (fuel : Nat) : Prop :=
  ∀ p st, existsFile fs p = true → cardUndisc fs st.visited < fuel →
    WInv fs cfg st → InProgressReaches fs cfg st p →
    WalkConc fs cfg st (walkAux fs cfg fuel p st) p

/-- Statement family for `walkImports` at a given fuel. -/
def WalkQ (fs : FS) (cfg : Config) (fuel : Nat) : Prop :=
  ∀ specs p st, (∀ s ∈ specs, s ∈ extractImports (readText fs p)) →
    p ∈ st.visited → p ∉ st.order → cardUndisc fs st.visited < fuel →
    WInv fs cfg st → InProgressReaches fs cfg st p →
    ImportsConc fs cfg st (walkImports fs cfg fuel specs (dirname p) st) p specs

/-- The candidate list of the resolution algorithm as the specification
words it: exact path, then `.ts`, then `/index.ts`, then `.d.ts`, against
the importing directory for relative specifiers and the project's
`node_modules` otherwise. -/
def resolveCandidates (cfg : Config) (importPath currentFileDir : FPath) : List FPath :=
  [targetOf cfg importPath currentFileDir,
    targetOf cfg importPath currentFileDir ++ ".ts".data,
    targetOf cfg importPath currentFileDir ++ "/index.ts".data,
    targetOf cfg importPath currentFileDir ++ ".d.ts".data]

/-- Top-level key set contributed by one collected resource document. -/
def docKeys (d : FPath × Option Json) : List (List Char) :=
  match d.2 with
  | some j => (topFields j).map Prod.fst
  | none => []

/-- Concatenation of the top-level fields of a list of parsed documents. -/
def flatDocs (docs : List (FPath × Option Json)) : List (List Char × Json) :=
  docs.flatMap (fun d =>
    match d.2 with
    | some j => topFields j
    | none => [])

/-!
## Concrete fixtures used by witnesses and counterexamples
-/

/-- Configuration of the concrete fixtures: project root `/r`, entry
`/r/a.ts`, outputs under `/out`. -/
def cfgW : Config :=
  ⟨"/r/a.ts".data, "/out/bundle.ts".data, "/out/bundle.strings.json".data, "/r".data⟩

/-- One-file project whose entry imports the external `mod` namespace. -/
def fsModW : FS :=
  ⟨[("/r/a.ts".data, .src "import x from \"mod\";\nlet y = 1;".data)]⟩

/-- One-file project whose entry imports a specifier that resolves to no
file on disk. -/
def fsMissW : FS :=
  ⟨[("/r/a.ts".data, .src "import x from \"./missing\";\nconst q = 2;".data)]⟩

/-- Linear three-file project: `a.ts` imports `./b`, `b.ts` imports
`./sub/c`, `c.ts` imports nothing. -/
def fsLinW : FS :=
  ⟨[("/r/a.ts".data, .src "import x from \"./b\";\nx();".data),
    ("/r/b.ts".data, .src "import c from \"./sub/c\";\nexport const b = c;".data),
    ("/r/sub/c.ts".data, .src "export const c = 1;".data)]⟩

/-- Cyclic two-file project: `a.ts` imports `./b` and `b.ts` imports `./a`. -/
def fsCycW : FS :=
  ⟨[("/r/a.ts".data, .src "import x from \"./b\";\nconst a = 1;".data),
    ("/r/b.ts".data, .src "import y from \"./a\";\nconst b = 2;".data)]⟩

/-- Project whose entry imports a declaration-only file `t.d.ts`. -/
def fsDeclW : FS :=
  ⟨[("/r/a.ts".data, .src "import x from \"./t\";\nconst a = 1;".data),
    ("/r/t.d.ts".data, .src "declare const t : number;".data)]⟩

/-- Project with two resource documents with disjoint top-level key sets. -/
def fsStrW : FS :=
  ⟨[("/r/a.ts".data, .src "import x from \"./sub/b\";".data),
    ("/r/sub/b.ts".data, .src "const b = 1;".data),
    ("/r/strings.json".data, .res (some (.obj [("x".data, .num 1)]))),
    ("/r/sub/b.strings.json".data, .res (some (.obj [("y".data, .num 2)])))]⟩

/-- Project with two resource documents sharing the top-level key
`shared`. -/
def fsDupW : FS :=
  ⟨[("/r/a.ts".data, .src "import x from \"./sub/b\";".data),
    ("/r/sub/b.ts".data, .src "const b = 1;".data),
    ("/r/strings.json".data, .res (some (.obj [("shared".data, .num 1)]))),
    ("/r/sub/b.strings.json".data, .res (some (.obj [("shared".data, .num 2)])))]⟩

/-- Empty filesystem: the configured entry file does not exist. -/
def fsNoEntryW : FS := ⟨[]⟩

/-- Text on which statement removal splices a new import statement: the
prefix `imp` and suffix `ort x from "q";` surround a complete import
statement, so one strip application leaves `import x from "q";`. -/
def seamText : List Char :=
  "impimport a from \"b\";ort x from \"q\";".data

/-- Text containing no occurrence of any removal pattern. -/
def plainText : List Char := "const x = 1;".data

/-!
## Basic lemmas
-/

theorem walkAux_zero (fs : FS) (cfg : Config) (p : FPath) (st : WalkSt) :
    walkAux fs cfg 0 p st = st := rfl

theorem walkAux_visited (fs : FS) (cfg : Config) (fuel : Nat) (p : FPath) (st : WalkSt)
    (h : p ∈ st.visited) : walkAux fs cfg (fuel + 1) p st = st := by
  unfold walkAux
  rw [if_pos h]

theorem walkAux_new (fs : FS) (cfg : Config) (fuel : Nat) (p : FPath) (st : WalkSt)
    (h : p ∉ st.visited) :
    walkAux fs cfg (fuel + 1) p st =
      { walkImports fs cfg fuel (extractImports (readText fs p)) (dirname p)
          { st with visited := p :: st.visited } with
        order := (walkImports fs cfg fuel (extractImports (readText fs p)) (dirname p)
          { st with visited := p :: st.visited }).order ++ [p] } := by
  unfold walkAux
  rw [if_neg h]
  rfl

theorem walkImports_nil (fs : FS) (cfg : Config) (fuel : Nat) (dir : FPath) (st : WalkSt) :
    walkImports fs cfg fuel [] dir st = st := rfl

theorem walkImportsF_cons (fs : FS) (cfg : Config) (wrec : FPath → WalkSt → WalkSt)
    (spec : FPath) (rest : List FPath) (dir : FPath) (st : WalkSt) :
    walkImportsF fs cfg wrec (spec :: rest) dir st =
      walkImportsF fs cfg wrec rest dir
        (match (resolveImport fs cfg spec dir).1 with
          | some ap =>
            if isDecl ap then { st with warns := st.warns ++ (resolveImport fs cfg spec dir).2 }
            else wrec ap { st with warns := st.warns ++ (resolveImport fs cfg spec dir).2 }
          | none => { st with warns := st.warns ++ (resolveImport fs cfg spec dir).2 }) := rfl

theorem walkImports_cons_none (fs : FS) (cfg : Config) (fuel : Nat) (spec : FPath)
    (rest : List FPath) (dir : FPath) (st : WalkSt)
    (h : (resolveImport fs cfg spec dir).1 = none) :
    walkImports fs cfg fuel (spec :: rest) dir st =
      walkImports fs cfg fuel rest dir
        { st with warns := st.warns ++ (resolveImport fs cfg spec dir).2 } := by
  show walkImportsF fs cfg (walkAux fs cfg fuel) (spec :: rest) dir st =
    walkImportsF fs cfg (walkAux fs cfg fuel) rest dir
      { st with warns := st.warns ++ (resolveImport fs cfg spec dir).2 }
  rw [walkImportsF_cons, h]

theorem walkImports_cons_decl (fs : FS) (cfg : Config) (fuel : Nat) (spec : FPath)
    (rest : List FPath) (dir : FPath) (st : WalkSt) (ap : FPath)
    (h : (resolveImport fs cfg spec dir).1 = some ap) (hd : isDecl ap = true) :
    walkImports fs cfg fuel (spec :: rest) dir st =
      walkImports fs cfg fuel rest dir
        { st with warns := st.warns ++ (resolveImport fs cfg spec dir).2 } := by
  show walkImportsF fs cfg (walkAux fs cfg fuel) (spec :: rest) dir st =
    walkImportsF fs cfg (walkAux fs cfg fuel) rest dir
      { st with warns := st.warns ++ (resolveImport fs cfg spec dir).2 }
  rw [walkImportsF_cons, h]
  show walkImportsF fs cfg (walkAux fs cfg fuel) rest dir
      (if isDecl ap then { st with warns := st.warns ++ (resolveImport fs cfg spec dir).2 }
        else walkAux fs cfg fuel ap
          { st with warns := st.warns ++ (resolveImport fs cfg spec dir).2 }) =
    walkImportsF fs cfg (walkAux fs cfg fuel) rest dir
      { st with warns := st.warns ++ (resolveImport fs cfg spec dir).2 }
  rw [hd]
  rw [if_pos rfl]

theorem walkImports_cons_walk (fs : FS) (cfg : Config) (fuel : Nat) (spec : FPath)
    (rest : List FPath) (dir : FPath) (st : WalkSt) (ap : FPath)
    (h : (resolveImport fs cfg spec dir).1 = some ap) (hd : isDecl ap = false) :
    walkImports fs cfg fuel (spec :: rest) dir st =
      walkImports fs cfg fuel rest dir
        (walkAux fs cfg fuel ap
          { st with warns := st.warns ++ (resolveImport fs cfg spec dir).2 }) := by
  show walkImportsF fs cfg (walkAux fs cfg fuel) (spec :: rest) dir st =
    walkImportsF fs cfg (walkAux fs cfg fuel) rest dir
      (walkAux fs cfg fuel ap
        { st with warns := st.warns ++ (resolveImport fs cfg spec dir).2 })
  rw [walkImportsF_cons, h]
  show walkImportsF fs cfg (walkAux fs cfg fuel) rest dir
      (if isDecl ap then { st with warns := st.warns ++ (resolveImport fs cfg spec dir).2 }
        else walkAux fs cfg fuel ap
          { st with warns := st.warns ++ (resolveImport fs cfg spec dir).2 }) =
    walkImportsF fs cfg (walkAux fs cfg fuel) rest dir
      (walkAux fs cfg fuel ap
        { st with warns := st.warns ++ (resolveImport fs cfg spec dir).2 })
  rw [hd]
  rw [if_neg Bool.false_ne_true]

theorem existsFile_iff (fs : FS) (p : FPath) :
    existsFile fs p = true ↔ p ∈ fs.files.map Prod.fst :=
  List.elem_iff

theorem tryExts_some_exists (fs : FS) (t : FPath) (l : List (List Char)) (ap : FPath)
    (h : tryExts fs t l = some ap) : existsFile fs ap = true := by
  induction l with
  | nil => simp [tryExts] at h
  | cons e rest ih =>
    unfold tryExts at h
    split at h
    next he =>
      injection h with h
      subst h
      exact he
    next he => exact ih h

theorem tryExts_eq_find (fs : FS) (t : FPath) (l : List (List Char)) :
    tryExts fs t l = (l.map (fun e => t ++ e)).find? (fun c => existsFile fs c) := by
  induction l with
  | nil => rfl
  | cons e rest ih =>
    by_cases he : existsFile fs (t ++ e) = true
    · simp [tryExts, he, List.find?]
    · simp only [tryExts, List.map_cons, List.find?_cons]
      rw [if_neg he]
      simp only [Bool.not_eq_true] at he
      simp [he, ih]

theorem resolveImport_some_exists (fs : FS) (cfg : Config) (s d ap : FPath)
    (h : (resolveImport fs cfg s d).1 = some ap) : existsFile fs ap = true := by
  unfold resolveImport at h
  split at h
  · simp at h
  · split at h
    next hex =>
      injection h with h
      subst h
      exact hex
    next hex =>
      split at h
      next ap2 hx =>
        injection h with h
        subst h
        exact tryExts_some_exists fs _ extensions _ hx
      next hx => simp at h

theorem resolveImport_some_warns (fs : FS) (cfg : Config) (s d ap : FPath)
    (h : (resolveImport fs cfg s d).1 = some ap) : (resolveImport fs cfg s d).2 = [] := by
  unfold resolveImport at h ⊢
  split at h
  next hm => simp [hm]
  next hm =>
    rw [if_neg hm]
    split at h
    next hex => simp [hex]
    next hex =>
      rw [if_neg hex]
      split at h
      next ap2 hx => simp [hx]
      next hx => simp at h

theorem resolveImport_none_warns (fs : FS) (cfg : Config) (s d : FPath)
    (hm : s ∉ EXTERNAL_MODULES) (h : (resolveImport fs cfg s d).1 = none) :
    (resolveImport fs cfg s d).2 = [(s, d)] := by
  unfold resolveImport at h ⊢
  rw [if_neg hm] at h ⊢
  split at h
  next hex => simp at h
  next hex =>
    rw [if_neg hex]
    split at h
    next ap2 hx => simp [hx] at h
    next hx => simp [hx]

theorem idxOf_append_of_mem (x : FPath) (l l2 : List FPath) (h : x ∈ l) :
    idxOf x (l ++ l2) = idxOf x l := by
  induction l with
  | nil => cases h
  | cons y t ih =>
    by_cases hy : y = x
    · simp [idxOf, hy]
    · have hx : x ∈ t := by
        rcases List.mem_cons.mp h with h1 | h1
        · exact absurd h1.symm hy
        · exact h1
      simp [idxOf, hy, ih hx]

theorem idxOf_concat_self (p : FPath) (l : List FPath) (h : p ∉ l) :
    idxOf p (l ++ [p]) = l.length := by
  induction l with
  | nil => simp [idxOf]
  | cons y t ih =>
    have hy : ¬ (y = p) := fun e => h (e ▸ List.mem_cons_self y t)
    have ht : p ∉ t := fun e => h (List.mem_cons_of_mem y e)
    simp [idxOf, hy, ih ht]

theorem idxOf_lt_length (x : FPath) (l : List FPath) (h : x ∈ l) :
    idxOf x l < l.length := by
  induction l with
  | nil => cases h
  | cons y t ih =>
    by_cases hy : y = x
    · simp [idxOf, hy]
    · have hx : x ∈ t := by
        rcases List.mem_cons.mp h with h1 | h1
        · exact absurd h1.symm hy
        · exact h1
      simp only [idxOf, if_neg hy, List.length_cons]
      exact Nat.succ_lt_succ (ih hx)

theorem cardUndisc_lt (fs : FS) (p : FPath) (vis : List FPath)
    (hex : existsFile fs p = true) (hnv : p ∉ vis) :
    cardUndisc fs (p :: vis) < cardUndisc fs vis := by
  unfold cardUndisc
  apply Finset.card_lt_card
  have hsub : (fs.files.map Prod.fst).toFinset \ (p :: vis).toFinset ⊆
      (fs.files.map Prod.fst).toFinset \ vis.toFinset := by
    intro x hx
    rcases Finset.mem_sdiff.mp hx with ⟨h1, h2⟩
    refine Finset.mem_sdiff.mpr ⟨h1, fun hv => h2 ?_⟩
    exact List.mem_toFinset.mpr (List.mem_cons_of_mem p (List.mem_toFinset.mp hv))
  refine (Finset.ssubset_iff_of_subset hsub).mpr ⟨p, ?_, ?_⟩
  · exact Finset.mem_sdiff.mpr
      ⟨List.mem_toFinset.mpr ((existsFile_iff fs p).mp hex),
        fun hc => hnv (List.mem_toFinset.mp hc)⟩
  · intro hc
    rcases Finset.mem_sdiff.mp hc with ⟨_, h2⟩
    exact h2 (List.mem_toFinset.mpr (List.mem_cons_self p vis))

theorem cardUndisc_mono (fs : FS) (v1 v2 : List FPath) (h : ∀ x ∈ v1, x ∈ v2) :
    cardUndisc fs v2 ≤ cardUndisc fs v1 := by
  unfold cardUndisc
  apply Finset.card_le_card
  intro x hx
  rcases Finset.mem_sdiff.mp hx with ⟨h1, h2⟩
  refine Finset.mem_sdiff.mpr ⟨h1, fun hv => h2 ?_⟩
  exact List.mem_toFinset.mpr (h x (List.mem_toFinset.mp hv))

theorem cardUndisc_init (fs : FS) : cardUndisc fs [] < totalFuel fs := by
  unfold cardUndisc totalFuel
  have h1 : ((fs.files.map Prod.fst).toFinset \ ([] : List FPath).toFinset).card ≤
      (fs.files.map Prod.fst).toFinset.card :=
    Finset.card_le_card Finset.sdiff_subset
  have h2 : (fs.files.map Prod.fst).toFinset.card ≤ (fs.files.map Prod.fst).length :=
    List.toFinset_card_le _
  simp only [List.length_map] at h2
  omega

theorem edge_of_resolve (fs : FS) (cfg : Config) (p spec ap : FPath)
    (hs : spec ∈ extractImports (readText fs p))
    (hr : (resolveImport fs cfg spec (dirname p)).1 = some ap)
    (hd : isDecl ap = false) : Edge fs cfg p ap := by
  unfold Edge depsOf
  refine List.mem_filterMap.mpr ⟨spec, hs, ?_⟩
  rw [hr]
  simp [hd]

theorem edge_elim (fs : FS) (cfg : Config) (p w : FPath) (h : Edge fs cfg p w) :
    ∃ spec ∈ extractImports (readText fs p),
      (resolveImport fs cfg spec (dirname p)).1 = some w ∧ isDecl w = false := by
  unfold Edge depsOf at h
  rcases List.mem_filterMap.mp h with ⟨spec, hs, hmap⟩
  rcases hr : (resolveImport fs cfg spec (dirname p)).1 with _ | ap
  · rw [hr] at hmap
    simp at hmap
  · rw [hr] at hmap
    have hmap2 : (if isDecl ap = true then none else some ap) = some w := hmap
    rcases hd : isDecl ap with _ | _
    · rw [hd] at hmap2
      simp at hmap2
      subst hmap2
      exact ⟨spec, hs, hr, hd⟩
    · rw [hd] at hmap2
      simp at hmap2

/-!
## Unconditional structure of the walker

Whatever the fuel, a walker call only appends previously unvisited,
pairwise-distinct paths to the build order.
-/

theorem deltaSpec_refl (st : WalkSt) : DeltaSpec st st :=
  ⟨fun _ h => h, [], (List.append_nil _).symm, by simp, List.nodup_nil, by simp⟩

theorem deltaSpec_of_warns (st : WalkSt) (w : List Warning) :
    DeltaSpec st { st with warns := w } :=
  ⟨fun _ h => h, [], (List.append_nil _).symm, by simp, List.nodup_nil, by simp⟩

theorem deltaSpec_trans {st1 st2 st3 : WalkSt} (h1 : DeltaSpec st1 st2)
    (h2 : DeltaSpec st2 st3) : DeltaSpec st1 st3 := by
  obtain ⟨m1, Δ1, ho1, hn1, hd1, hv1⟩ := h1
  obtain ⟨m2, Δ2, ho2, hn2, hd2, hv2⟩ := h2
  refine ⟨fun x hx => m2 x (m1 x hx), Δ1 ++ Δ2, ?_, ?_, ?_, ?_⟩
  · rw [ho2, ho1, List.append_assoc]
  · intro x hx
    rcases List.mem_append.mp hx with hx | hx
    · exact hn1 x hx
    · exact fun hv => hn2 x hx (m1 x hv)
  · exact List.Nodup.append hd1 hd2 (fun x hx1 hx2 => hn2 x hx2 (hv1 x hx1))
  · intro x hx
    rcases List.mem_append.mp hx with hx | hx
    · exact m2 x (hv1 x hx)
    · exact hv2 x hx

theorem walkImports_delta (fs : FS) (cfg : Config) (fuel : Nat)
    (hP : ∀ p st, DeltaSpec st (walkAux fs cfg fuel p st)) :
    ∀ specs dir st, DeltaSpec st (walkImports fs cfg fuel specs dir st) := by
  intro specs
  induction specs with
  | nil =>
    intro dir st
    rw [walkImports_nil]
    exact deltaSpec_refl st
  | cons s rest ih =>
    intro dir st
    rcases hr : (resolveImport fs cfg s dir).1 with _ | ap
    · rw [walkImports_cons_none fs cfg fuel s rest dir st hr]
      exact deltaSpec_trans (deltaSpec_of_warns st _) (ih dir _)
    · rcases hd : isDecl ap with _ | _
      · rw [walkImports_cons_walk fs cfg fuel s rest dir st ap hr hd]
        exact deltaSpec_trans (deltaSpec_trans (deltaSpec_of_warns st _) (hP ap _)) (ih dir _)
      · rw [walkImports_cons_decl fs cfg fuel s rest dir st ap hr hd]
        exact deltaSpec_trans (deltaSpec_of_warns st _) (ih dir _)

theorem walkAux_delta (fs : FS) (cfg : Config) :
    ∀ fuel p st, DeltaSpec st (walkAux fs cfg fuel p st) := by
  intro fuel
  induction fuel with
  | zero =>
    intro p st
    rw [walkAux_zero]
    exact deltaSpec_refl st
  | succ f ih =>
    intro p st
    by_cases hv : p ∈ st.visited
    · rw [walkAux_visited fs cfg f p st hv]
      exact deltaSpec_refl st
    · rw [walkAux_new fs cfg f p st hv]
      obtain ⟨m2, Δ, ho2, hn2, hd2, hv2⟩ :=
        walkImports_delta fs cfg f ih (extractImports (readText fs p)) (dirname p)
          { st with visited := p :: st.visited }
      refine ⟨?_, Δ ++ [p], ?_, ?_, ?_, ?_⟩
      · exact fun x hx => m2 x (List.mem_cons_of_mem p hx)
      · simp only []
        rw [ho2]
        simp [List.append_assoc]
      · intro x hx
        rcases List.mem_append.mp hx with hx | hx
        · exact fun hmem => hn2 x hx (List.mem_cons_of_mem p hmem)
        · rw [List.mem_singleton.mp hx]
          exact hv
      · refine List.Nodup.append hd2 (List.nodup_singleton p) ?_
        intro x hx1 hx2
        rw [List.mem_singleton.mp hx2] at hx1
        exact hn2 p hx1 (List.mem_cons_self p st.visited)
      · intro x hx
        rcases List.mem_append.mp hx with hx | hx
        · exact hv2 x hx
        · rw [List.mem_singleton.mp hx]
          exact m2 p (List.mem_cons_self p st.visited)

/-!
## Main walker specification

With sufficient fuel the walker establishes the ordering invariant:
the proof follows the recursion, carrying the invariant `WInv`, the
ancestor property `InProgressReaches`, and a fuel bound.
-/

theorem wInv_visited_cons (fs : FS) (cfg : Config) (st : WalkSt) (p : FPath)
    (h : WInv fs cfg st) : WInv fs cfg { st with visited := p :: st.visited } := by
  obtain ⟨h1, h2, h3, h4⟩ := h
  exact ⟨h1, fun x hx => List.mem_cons_of_mem p (h2 x hx),
    fun u hu w hw => List.mem_cons_of_mem p (h3 u hu w hw), h4⟩

theorem walkQ_of_P (fs : FS) (cfg : Config) (fuel : Nat) (hP : WalkP fs cfg fuel) :
    WalkQ fs cfg fuel := by
  intro specs
  induction specs with
  | nil =>
    intro p st hspecs hpv hpo hcard hinv hprog
    rw [walkImports_nil]
    exact ⟨fun _ h => h, ⟨[], (List.append_nil _).symm, fun x hx => absurd hx (List.not_mem_nil x)⟩,
      hinv, fun a ha hna => ⟨ha, hna⟩, fun x hx => absurd hx (List.not_mem_nil x)⟩
  | cons s rest ih =>
    intro p st hspecs hpv hpo hcard hinv hprog
    have hs : s ∈ extractImports (readText fs p) := hspecs s (List.mem_cons_self s rest)
    have hrest : ∀ x ∈ rest, x ∈ extractImports (readText fs p) :=
      fun x hx => hspecs x (List.mem_cons_of_mem s hx)
    rcases hr : (resolveImport fs cfg s (dirname p)).1 with _ | ap
    · rw [walkImports_cons_none fs cfg fuel s rest (dirname p) st hr]
      obtain ⟨m, hΔ, hinv2, hK4, hK5⟩ :=
        ih p { st with warns := st.warns ++ (resolveImport fs cfg s (dirname p)).2 }
          hrest hpv hpo hcard hinv hprog
      refine ⟨m, hΔ, hinv2, hK4, ?_⟩
      intro x hx ap2 hres hdecl
      rcases List.mem_cons.mp hx with hx | hx
      · subst hx
        rw [hres] at hr
        cases hr
      · exact hK5 x hx ap2 hres hdecl
    · rcases hd : isDecl ap with _ | _
      · -- resolved, not declaration-only: recurse into the dependency
        rw [walkImports_cons_walk fs cfg fuel s rest (dirname p) st ap hr hd]
        have hap_ex : existsFile fs ap = true :=
          resolveImport_some_exists fs cfg s (dirname p) ap hr
        have hedge : Edge fs cfg p ap := edge_of_resolve fs cfg p s ap hs hr hd
        have hprog1 : InProgressReaches fs cfg
            { st with warns := st.warns ++ (resolveImport fs cfg s (dirname p)).2 } ap := by
          intro a ha hna
          exact Relation.ReflTransGen.tail (hprog a ha hna) hedge
        obtain ⟨m1, ⟨Δ1, hΔ1o, hΔ1n⟩, hinv1, hapv, hK4a⟩ :=
          hP ap { st with warns := st.warns ++ (resolveImport fs cfg s (dirname p)).2 }
            hap_ex hcard hinv hprog1
        have hpv2 : p ∈ (walkAux fs cfg fuel ap
            { st with warns := st.warns ++ (resolveImport fs cfg s (dirname p)).2 }).visited :=
          m1 p hpv
        have hpo2 : p ∉ (walkAux fs cfg fuel ap
            { st with warns := st.warns ++ (resolveImport fs cfg s (dirname p)).2 }).order := by
          rw [hΔ1o]
          intro hmem
          rcases List.mem_append.mp hmem with hmem | hmem
          · exact hpo hmem
          · exact hΔ1n p hmem hpv
        have hcard2 : cardUndisc fs (walkAux fs cfg fuel ap
            { st with warns := st.warns ++ (resolveImport fs cfg s (dirname p)).2 }).visited
              < fuel :=
          lt_of_le_of_lt (cardUndisc_mono fs _ _ m1) hcard
        have hprog2 : InProgressReaches fs cfg (walkAux fs cfg fuel ap
            { st with warns := st.warns ++ (resolveImport fs cfg s (dirname p)).2 }) p := by
          intro a ha hna
          obtain ⟨ha2, hna2⟩ := hK4a a ha hna
          exact hprog a ha2 hna2
        obtain ⟨m2, ⟨Δ2, hΔ2o, hΔ2n⟩, hinv3, hK4b, hK5⟩ :=
          ih p (walkAux fs cfg fuel ap
            { st with warns := st.warns ++ (resolveImport fs cfg s (dirname p)).2 })
            hrest hpv2 hpo2 hcard2 hinv1 hprog2
        refine ⟨fun x hx => m2 x (m1 x hx), ⟨Δ1 ++ Δ2, ?_, ?_⟩, hinv3, ?_, ?_⟩
        · rw [hΔ2o, hΔ1o, List.append_assoc]
        · intro x hx
          rcases List.mem_append.mp hx with hx | hx
          · exact hΔ1n x hx
          · exact fun hvv => hΔ2n x hx (m1 x hvv)
        · intro a ha hna
          obtain ⟨ha2, hna2⟩ := hK4b a ha hna
          exact hK4a a ha2 hna2
        · intro x hx ap2 hres hdecl
          rcases List.mem_cons.mp hx with hx | hx
          · subst hx
            rw [hr] at hres
            injection hres with he
            subst he
            exact m2 ap hapv
          · exact hK5 x hx ap2 hres hdecl
      · -- resolved to a declaration-only file: skipped
        rw [walkImports_cons_decl fs cfg fuel s rest (dirname p) st ap hr hd]
        obtain ⟨m, hΔ, hinv2, hK4, hK5⟩ :=
          ih p { st with warns := st.warns ++ (resolveImport fs cfg s (dirname p)).2 }
            hrest hpv hpo hcard hinv hprog
        refine ⟨m, hΔ, hinv2, hK4, ?_⟩
        intro x hx ap2 hres hdecl
        rcases List.mem_cons.mp hx with hx | hx
        · subst hx
          rw [hr] at hres
          injection hres with he
          subst he
          rw [hd] at hdecl
          cases hdecl
        · exact hK5 x hx ap2 hres hdecl

theorem walkP_succ (fs : FS) (cfg : Config) (fuel : Nat) (hQ : WalkQ fs cfg fuel) :
    WalkP fs cfg (fuel + 1) := by
  intro p st hex hcard hinv hprog
  by_cases hv : p ∈ st.visited
  · rw [walkAux_visited fs cfg fuel p st hv]
    exact ⟨fun _ h => h, ⟨[], (List.append_nil _).symm, fun x hx => absurd hx (List.not_mem_nil x)⟩,
      hinv, hv, fun a ha hna => ⟨ha, hna⟩⟩
  · rw [walkAux_new fs cfg fuel p st hv]
    have hpo : p ∉ st.order := fun hmem => hv (hinv.2.1 p hmem)
    have hinv1 : WInv fs cfg { st with visited := p :: st.visited } :=
      wInv_visited_cons fs cfg st p hinv
    have hcard1 : cardUndisc fs (p :: st.visited) < fuel := by
      have hlt := cardUndisc_lt fs p st.visited hex hv
      omega
    have hprog1 : InProgressReaches fs cfg { st with visited := p :: st.visited } p := by
      intro a ha hna
      rcases List.mem_cons.mp ha with rfl | ha
      · exact Relation.ReflTransGen.refl
      · exact hprog a ha hna
    obtain ⟨m2, ⟨Δ, hΔo, hΔn⟩, hinv2, hK4, hK5⟩ :=
      hQ (extractImports (readText fs p)) p { st with visited := p :: st.visited }
        (fun x hx => hx) (List.mem_cons_self p st.visited) hpo hcard1 hinv1 hprog1
    have hpv2 : p ∈ (walkImports fs cfg fuel (extractImports (readText fs p)) (dirname p)
        { st with visited := p :: st.visited }).visited :=
      m2 p (List.mem_cons_self p st.visited)
    have hpo2 : p ∉ (walkImports fs cfg fuel (extractImports (readText fs p)) (dirname p)
        { st with visited := p :: st.visited }).order := by
      rw [hΔo]
      intro hmem
      rcases List.mem_append.mp hmem with hmem | hmem
      · exact hpo hmem
      · exact hΔn p hmem (List.mem_cons_self p st.visited)
    obtain ⟨hnd2, hsub2, hdeps2, hord2⟩ := hinv2
    refine ⟨?_, ⟨Δ ++ [p], ?_, ?_⟩, ⟨?_, ?_, ?_, ?_⟩, ?_, ?_⟩
    · exact fun x hx => m2 x (List.mem_cons_of_mem p hx)
    · simp only []
      rw [hΔo, List.append_assoc]
    · intro x hx
      rcases List.mem_append.mp hx with hx | hx
      · exact fun hvv => hΔn x hx (List.mem_cons_of_mem p hvv)
      · rw [List.mem_singleton.mp hx]
        exact hv
    · refine List.Nodup.append hnd2 (List.nodup_singleton p) ?_
      intro x hx1 hx2
      rw [List.mem_singleton.mp hx2] at hx1
      exact hpo2 hx1
    · intro x hx
      rcases List.mem_append.mp hx with hx | hx
      · exact hsub2 x hx
      · rw [List.mem_singleton.mp hx]
        exact hpv2
    · intro u hu w hw
      rcases List.mem_append.mp hu with hu | hu
      · exact hdeps2 u hu w hw
      · rw [List.mem_singleton.mp hu] at hw
        rcases edge_elim fs cfg p w hw with ⟨spec, hspec, hres, hdecl⟩
        exact hK5 spec hspec w hres hdecl
    · intro u hu w hw hnr
      rcases List.mem_append.mp hu with hu | hu
      · obtain ⟨hwmem, hlt⟩ := hord2 u hu w hw hnr
        refine ⟨List.mem_append_left _ hwmem, ?_⟩
        rw [idxOf_append_of_mem w _ _ hwmem, idxOf_append_of_mem u _ _ hu]
        exact hlt
      · have hup : u = p := List.mem_singleton.mp hu
        subst hup
        rcases edge_elim fs cfg u w hw with ⟨spec, hspec, hres, hdecl⟩
        have hwv := hK5 spec hspec w hres hdecl
        have hwo : w ∈ (walkImports fs cfg fuel (extractImports (readText fs u)) (dirname u)
            { st with visited := u :: st.visited }).order := by
          by_contra hwo
          obtain ⟨hw1, hw1o⟩ := hK4 w hwv hwo
          rcases List.mem_cons.mp hw1 with rfl | hw1
          · exact hnr Relation.ReflTransGen.refl
          · exact hnr (hprog w hw1 hw1o)
        refine ⟨List.mem_append_left _ hwo, ?_⟩
        rw [idxOf_append_of_mem w _ _ hwo, idxOf_concat_self u _ hpo2]
        exact idxOf_lt_length w _ hwo
    · exact hpv2
    · intro a ha hna
      have hao : a ∉ (walkImports fs cfg fuel (extractImports (readText fs p)) (dirname p)
          { st with visited := p :: st.visited }).order :=
        fun h => hna (List.mem_append_left _ h)
      obtain ⟨ha1, ha1o⟩ := hK4 a ha hao
      rcases List.mem_cons.mp ha1 with rfl | ha1
      · exact absurd (List.mem_append_right _ (List.mem_singleton.mpr rfl)) hna
      · exact ⟨ha1, ha1o⟩

theorem walkP_all (fs : FS) (cfg : Config) : ∀ fuel, WalkP fs cfg fuel := by
  intro fuel
  induction fuel with
  | zero =>
    intro p st hex hcard hinv hprog
    exact absurd hcard (Nat.not_lt_zero _)
  | succ f ih => exact walkP_succ fs cfg f (walkQ_of_P fs cfg f ih)

theorem walk_spec (fs : FS) (cfg : Config) (entry : FPath)
    (hex : existsFile fs entry = true) :
    WalkConc fs cfg ⟨[], [], []⟩ (walk fs cfg entry) entry :=
  walkP_all fs cfg (totalFuel fs) entry ⟨[], [], []⟩ hex (cardUndisc_init fs)
    ⟨List.nodup_nil, fun x hx => absurd hx (List.not_mem_nil x),
      fun u hu => absurd hu (List.not_mem_nil u),
      fun u hu => absurd hu (List.not_mem_nil u)⟩
    (fun a ha => absurd ha (List.not_mem_nil a))

/-!
## Resource-merge lemmas
-/

theorem hasKey_iff (acc : List (List Char × Json)) (k : List Char) :
    hasKey acc k = true ↔ k ∈ acc.map Prod.fst :=
  List.elem_iff

theorem hasKey_eq_false_iff (acc : List (List Char × Json)) (k : List Char) :
    hasKey acc k = false ↔ k ∉ acc.map Prod.fst := by
  constructor
  · intro h hmem
    rw [(hasKey_iff acc k).mpr hmem] at h
    cases h
  · intro h
    rcases hb : hasKey acc k with _ | _
    · rfl
    · exact absurd ((hasKey_iff acc k).mp hb) h

theorem mergeKeys_ok (path : FPath) (kvs : List (List Char × Json)) :
    ∀ acc, (∀ k ∈ kvs.map Prod.fst, k ∉ acc.map Prod.fst) →
    (kvs.map Prod.fst).Nodup →
    mergeKeys path acc kvs = .ok (acc ++ kvs) := by
  induction kvs with
  | nil =>
    intro acc _ _
    simp [mergeKeys]
  | cons kv rest ih =>
    intro acc hdisj hnd
    obtain ⟨k, v⟩ := kv
    have hndc : (k :: rest.map Prod.fst).Nodup := hnd
    have hk : hasKey acc k = false :=
      (hasKey_eq_false_iff acc k).mpr (hdisj k (List.mem_cons_self k _))
    simp only [mergeKeys, hk, Bool.false_eq_true, if_false]
    rw [ih (acc ++ [(k, v)]) ?_ ?_]
    · simp
    · intro k2 hk2
      have h1 : k2 ∉ acc.map Prod.fst := hdisj k2 (List.mem_cons_of_mem k hk2)
      have h2 : ¬ (k2 = k) := by
        intro e
        subst e
        exact (List.nodup_cons.mp hndc).1 hk2
      rw [List.map_append]
      intro hc
      rcases List.mem_append.mp hc with hc | hc
      · exact h1 hc
      · exact h2 (List.mem_singleton.mp hc)
    · exact (List.nodup_cons.mp hndc).2

theorem mergeKeys_conflict (path : FPath) (kvs : List (List Char × Json)) :
    ∀ acc, (kvs.map Prod.fst).Nodup →
    (∃ k ∈ kvs.map Prod.fst, k ∈ acc.map Prod.fst) →
    ∃ k, mergeKeys path acc kvs = .error (.dupKey k path) ∧
      k ∈ kvs.map Prod.fst ∧ k ∈ acc.map Prod.fst := by
  induction kvs with
  | nil =>
    intro acc _ hex
    rcases hex with ⟨k, hk, _⟩
    cases hk
  | cons kv rest ih =>
    intro acc hnd hex
    obtain ⟨k, v⟩ := kv
    have hndc : (k :: rest.map Prod.fst).Nodup := hnd
    rcases hb : hasKey acc k with _ | _
    · -- head key fresh: the conflict lies in the tail
      simp only [mergeKeys, hb, Bool.false_eq_true, if_false]
      have hkacc : k ∉ acc.map Prod.fst := (hasKey_eq_false_iff acc k).mp hb
      have hknr : k ∉ rest.map Prod.fst := (List.nodup_cons.mp hndc).1
      have hex2 : ∃ k2 ∈ rest.map Prod.fst, k2 ∈ (acc ++ [(k, v)]).map Prod.fst := by
        rcases hex with ⟨k2, hk2, hk2acc⟩
        rcases List.mem_cons.mp hk2 with rfl | hk2r
        · exact absurd hk2acc hkacc
        · exact ⟨k2, hk2r, by rw [List.map_append]; exact List.mem_append_left _ hk2acc⟩
      obtain ⟨k2, herr, hk2r, hk2acc⟩ :=
        ih (acc ++ [(k, v)]) (List.nodup_cons.mp hndc).2 hex2
      refine ⟨k2, herr, List.mem_cons_of_mem k hk2r, ?_⟩
      rw [List.map_append] at hk2acc
      rcases List.mem_append.mp hk2acc with h | h
      · exact h
      · rw [List.mem_singleton.mp h] at hk2r
        exact absurd hk2r hknr
    · -- head key already present: immediate abort blaming this document
      simp only [mergeKeys, hb, if_true]
      exact ⟨k, rfl, List.mem_cons_self k _, (hasKey_iff acc k).mp hb⟩

theorem mergeDocs_append (docs : List (FPath × Option Json)) :
    ∀ acc tail,
    (∀ d ∈ docs, ∃ j, d.2 = some j) →
    (∀ d ∈ docs, (docKeys d).Nodup) →
    (∀ d ∈ docs, ∀ k ∈ docKeys d, k ∉ acc.map Prod.fst) →
    List.Pairwise (fun d e => ∀ k ∈ docKeys d, k ∉ docKeys e) docs →
    mergeDocs acc (docs ++ tail) = mergeDocs (acc ++ flatDocs docs) tail := by
  induction docs with
  | nil =>
    intro acc tail _ _ _ _
    simp [flatDocs]
  | cons d rest ih =>
    intro acc tail hp hnd hacc hpair
    obtain ⟨p, od⟩ := d
    rcases hp (p, od) (List.mem_cons_self _ _) with ⟨j, hj⟩
    simp only at hj
    subst hj
    have hkeys : docKeys (p, some j) = (topFields j).map Prod.fst := rfl
    simp only [List.cons_append, mergeDocs]
    rw [mergeKeys_ok p (topFields j) acc ?_ ?_]
    · show mergeDocs (acc ++ topFields j) (rest ++ tail) =
        mergeDocs (acc ++ flatDocs ((p, some j) :: rest)) tail
      rw [ih (acc ++ topFields j) tail ?_ ?_ ?_ ?_]
      · have hfl : flatDocs ((p, some j) :: rest) = topFields j ++ flatDocs rest := by
          simp [flatDocs]
        rw [hfl, List.append_assoc]
      · exact fun e he => hp e (List.mem_cons_of_mem _ he)
      · exact fun e he => hnd e (List.mem_cons_of_mem _ he)
      · intro e he k hk
        have h1 : k ∉ acc.map Prod.fst := hacc e (List.mem_cons_of_mem _ he) k hk
        have h2 : k ∉ docKeys (p, some j) :=
          fun hk2 => (List.pairwise_cons.mp hpair).1 e he k hk2 hk
        rw [hkeys] at h2
        simp only [List.map_append, List.mem_append]
        exact fun hc => hc.elim h1 h2
      · exact (List.pairwise_cons.mp hpair).2
    · intro k hk
      exact hacc (p, some j) (List.mem_cons_self _ _) k (by rw [hkeys]; exact hk)
    · have := hnd (p, some j) (List.mem_cons_self _ _)
      rw [hkeys] at this
      exact this

theorem mergeDocs_conflict (pre : List (FPath × Option Json)) (p : FPath) (j : Json)
    (rest : List (FPath × Option Json))
    (hp : ∀ d ∈ pre, ∃ j2, d.2 = some j2)
    (hnd : ∀ d ∈ pre, (docKeys d).Nodup)
    (hpair : List.Pairwise (fun d e => ∀ k ∈ docKeys d, k ∉ docKeys e) pre)
    (hjnd : ((topFields j).map Prod.fst).Nodup)
    (hconf : ∃ k ∈ (topFields j).map Prod.fst, k ∈ (flatDocs pre).map Prod.fst) :
    ∃ k, mergeDocs [] (pre ++ (p, some j) :: rest) = .error (.dupKey k p) ∧
      k ∈ (topFields j).map Prod.fst ∧ k ∈ (flatDocs pre).map Prod.fst := by
  rw [mergeDocs_append pre [] ((p, some j) :: rest) hp hnd
    (fun d _ k _ => List.not_mem_nil k) hpair]
  obtain ⟨k, herr, hk1, hk2⟩ := mergeKeys_conflict p (topFields j) (flatDocs pre)
    hjnd (by simpa using hconf)
  refine ⟨k, ?_, hk1, by simpa using hk2⟩
  simp only [mergeDocs, List.nil_append]
  rw [herr]

/-!
## Declaration-file exclusion lemmas
-/

theorem walkImports_no_decl_of (fs : FS) (cfg : Config) (fuel : Nat)
    (hA : ∀ p st, isDecl p = false → (∀ q ∈ st.order, isDecl q = false) →
      ∀ q ∈ (walkAux fs cfg fuel p st).order, isDecl q = false) :
    ∀ specs dir st, (∀ q ∈ st.order, isDecl q = false) →
      ∀ q ∈ (walkImports fs cfg fuel specs dir st).order, isDecl q = false := by
  intro specs
  induction specs with
  | nil =>
    intro dir st hst
    rw [walkImports_nil]
    exact hst
  | cons s rest ih =>
    intro dir st hst
    rcases hr : (resolveImport fs cfg s dir).1 with _ | ap
    · rw [walkImports_cons_none fs cfg fuel s rest dir st hr]
      exact ih dir _ hst
    · rcases hd : isDecl ap with _ | _
      · rw [walkImports_cons_walk fs cfg fuel s rest dir st ap hr hd]
        exact ih dir _ (hA ap _ hd hst)
      · rw [walkImports_cons_decl fs cfg fuel s rest dir st ap hr hd]
        exact ih dir _ hst

theorem walkAux_no_decl (fs : FS) (cfg : Config) :
    ∀ fuel p st, isDecl p = false → (∀ q ∈ st.order, isDecl q = false) →
      ∀ q ∈ (walkAux fs cfg fuel p st).order, isDecl q = false := by
  intro fuel
  induction fuel with
  | zero =>
    intro p st _ hst
    rw [walkAux_zero]
    exact hst
  | succ f ih =>
    intro p st hp hst
    by_cases hv : p ∈ st.visited
    · rw [walkAux_visited fs cfg f p st hv]
      exact hst
    · rw [walkAux_new fs cfg f p st hv]
      intro q hq
      rcases List.mem_append.mp hq with hq | hq
      · exact walkImports_no_decl_of fs cfg f ih (extractImports (readText fs p)) (dirname p)
          { st with visited := p :: st.visited } hst q hq
      · rw [List.mem_singleton.mp hq]
        exact hp

/-!
## Statement-removal lemmas
-/

theorem replaceAux_of_no_match (pat : Pat) :
    ∀ fuel t, hasMatch pat t = false → replaceAux pat fuel t = t := by
  intro fuel
  induction fuel with
  | zero =>
    intro t _
    rfl
  | succ f ih =>
    intro t h
    cases t with
    | nil => rfl
    | cons c rest =>
      unfold hasMatch at h
      rw [Bool.or_eq_false_iff] at h
      obtain ⟨hh, ht⟩ := h
      rcases hm : firstMatch pat (c :: rest) with _ | pr
      · simp only [replaceAux, hm]
        rw [ih rest ht]
      · rw [hm] at hh
        cases hh

theorem replaceAll_of_no_match (pat : Pat) (t : List Char) (h : hasMatch pat t = false) :
    replaceAllL pat t = t :=
  replaceAux_of_no_match pat t.length t h

theorem reaches_eq_of_no_deps (fs : FS) (cfg : Config) (x y : FPath)
    (h : depsOf fs cfg x = []) (hr : Reaches fs cfg x y) : x = y := by
  rcases Relation.ReflTransGen.cases_head hr with h1 | ⟨c, hc, _⟩
  · exact h1
  · unfold Edge at hc
    rw [h] at hc
    cases hc

/-!
## Claim theorems
-/

/-- Claim C1 (amended): a specifier on the configured external-modules list
is ignored by the resolver with no file access (the result is the constant
`(none, [])` whatever the filesystem), and the walker skips it without
recursing, appending to the build order, or warning; however — contrary to
the original claim — its import statement is not left untouched in the
bundle: the cleanup pipeline removes it like any other import statement,
as the final conjunct shows on the `mod` import of the fixture. -/
theorem c1_ignored_external :
    (∀ (fs : FS) (cfg : Config) (dir spec : FPath), spec ∈ EXTERNAL_MODULES →
      resolveImport fs cfg spec dir = (none, [])) ∧
    (∀ (fs : FS) (cfg : Config) (fuel : Nat) (rest : List FPath) (dir : FPath)
      (st : WalkSt) (spec : FPath), spec ∈ EXTERNAL_MODULES →
      walkImports fs cfg fuel (spec :: rest) dir st = walkImports fs cfg fuel rest dir st) ∧
    strip "import x from \"mod\";\nlet y = 1;".data = "\nlet y = 1;".data := by
  have h1 : ∀ (fs : FS) (cfg : Config) (dir spec : FPath), spec ∈ EXTERNAL_MODULES →
      resolveImport fs cfg spec dir = (none, []) := by
    intro fs cfg dir spec h
    unfold resolveImport
    rw [if_pos h]
  refine ⟨h1, ?_, by decide⟩
  intro fs cfg fuel rest dir st spec h
  rw [walkImports_cons_none fs cfg fuel spec rest dir st (by rw [h1 fs cfg dir spec h]),
    h1 fs cfg dir spec h]
  simp

set_option maxRecDepth 100000 in
/-- Witness for C1: the concrete `mod` import of the fixture. -/
theorem c1_witness :
    resolveImport fsModW cfgW "mod".data "/r".data = (none, []) ∧
    walkImports fsModW cfgW 1 ["mod".data] "/r".data ⟨["/r/a.ts".data], [], []⟩ =
      walkImports fsModW cfgW 1 [] "/r".data ⟨["/r/a.ts".data], [], []⟩ :=
  ⟨c1_ignored_external.1 fsModW cfgW "/r".data "mod".data (by decide),
    c1_ignored_external.2.1 fsModW cfgW 1 [] "/r".data ⟨["/r/a.ts".data], [], []⟩
      "mod".data (by decide)⟩

set_option maxRecDepth 100000 in
/-- Counterexample to C1 as stated: the build of the `mod`-importing fixture
succeeds, the entry's source contains the `mod` import statement verbatim,
yet the bundled output contains neither the statement nor `mod` at all —
the statement is not left untouched in the stripped output. -/
theorem c1_counterexample :
    (build fsModW cfgW).result = .ok [] ∧
    ("import x from \"mod\";".data <:+: readText fsModW "/r/a.ts".data) ∧
    ¬ ("import x from \"mod\";".data <:+:
      bundleText fsModW cfgW (walk fsModW cfgW cfgW.entryFile).order) ∧
    ¬ ("mod".data <:+: bundleText fsModW cfgW (walk fsModW cfgW cfgW.entryFile).order) :=
  ⟨rfl, by decide, by decide, by decide⟩

/-- Claim C2 (amended): an unresolved import produces exactly one warning
naming the specifier and the importing directory, the walker does not
recurse (the state only accumulates the warning), and the build still
succeeds whenever its other phases do; however — contrary to the original
claim — the unresolved statement does not remain as inert text: the cleanup
pipeline removes well-formed import statements regardless of resolution,
as the final conjunct shows. -/
theorem c2_unresolved_import :
    (∀ (fs : FS) (cfg : Config) (spec dir : FPath), spec ∉ EXTERNAL_MODULES →
      (resolveImport fs cfg spec dir).1 = none →
      (resolveImport fs cfg spec dir).2 = [(spec, dir)]) ∧
    (∀ (fs : FS) (cfg : Config) (fuel : Nat) (spec : FPath) (rest : List FPath)
      (dir : FPath) (st : WalkSt), (resolveImport fs cfg spec dir).1 = none →
      walkImports fs cfg fuel (spec :: rest) dir st =
        walkImports fs cfg fuel rest dir
          { st with warns := st.warns ++ (resolveImport fs cfg spec dir).2 }) ∧
    (∀ (fs : FS) (cfg : Config) (m : List (List Char × Json)),
      existsFile fs cfg.entryFile = true →
      processStrings fs (walk fs cfg cfg.entryFile).order = .ok m →
      (build fs cfg).result = .ok m) ∧
    strip "import x from \"./missing\";\nconst q = 2;".data = "\nconst q = 2;".data := by
  refine ⟨fun fs cfg spec dir => resolveImport_none_warns fs cfg spec dir, ?_, ?_, by decide⟩
  · intro fs cfg fuel spec rest dir st h
    rw [walkImports_cons_none fs cfg fuel spec rest dir st h]
  · intro fs cfg m hex hps
    unfold build
    rw [if_neg (fun hc => hc hex)]
    simp only [hps]

set_option maxRecDepth 100000 in
/-- Witness for C2: the concrete `./missing` import of the fixture. -/
theorem c2_witness :
    (resolveImport fsMissW cfgW "./missing".data "/r".data).2 =
      [("./missing".data, "/r".data)] ∧
    (build fsMissW cfgW).result = .ok [] :=
  ⟨c2_unresolved_import.1 fsMissW cfgW "./missing".data "/r".data (by decide) rfl,
    c2_unresolved_import.2.2.1 fsMissW cfgW [] rfl rfl⟩

set_option maxRecDepth 100000 in
/-- Counterexample to C2 as stated: the `./missing` build succeeds with the
expected warning, the entry's source contains the unresolved specifier, yet
the bundled output does not contain it — the unresolved statement is
removed by the stripper, not left as inert text. -/
theorem c2_counterexample :
    (build fsMissW cfgW).result = .ok [] ∧
    (build fsMissW cfgW).warns = [("./missing".data, "/r".data)] ∧
    ("./missing".data <:+: readText fsMissW "/r/a.ts".data) ∧
    ¬ ("missing".data <:+: bundleText fsMissW cfgW (walk fsMissW cfgW cfgW.entryFile).order) :=
  ⟨rfl, rfl, by decide, by decide⟩

/-- Claim C3 (amended): for every edge from an importer in the build order to
a resolved non-declaration dependency, if the importer is not reachable back
from the dependency (the edge does not lie on an import cycle), the
dependency is in the build order at a strictly smaller index. -/
theorem c3_dependency_before (fs : FS) (cfg : Config) (entry u w : FPath)
    (hentry : existsFile fs entry = true)
    (hu : u ∈ (walk fs cfg entry).order)
    (hw : Edge fs cfg u w)
    (hnc : ¬ Reaches fs cfg w u) :
    w ∈ (walk fs cfg entry).order ∧
      idxOf w (walk fs cfg entry).order < idxOf u (walk fs cfg entry).order := by
  obtain ⟨-, -, hinv, -, -⟩ := walk_spec fs cfg entry hentry
  exact hinv.2.2.2 u hu w hw hnc

set_option maxRecDepth 100000 in
/-- Witness for C3: in the linear fixture, `b.ts` imports `c.ts`, which has
no imports at all, so nothing reaches back, and `c.ts` precedes `b.ts`. -/
theorem c3_witness :
    "/r/sub/c.ts".data ∈ (walk fsLinW cfgW cfgW.entryFile).order ∧
      idxOf "/r/sub/c.ts".data (walk fsLinW cfgW cfgW.entryFile).order <
        idxOf "/r/b.ts".data (walk fsLinW cfgW cfgW.entryFile).order :=
  c3_dependency_before fsLinW cfgW cfgW.entryFile "/r/b.ts".data "/r/sub/c.ts".data
    rfl (by decide) (by decide)
    (fun h => absurd
      (reaches_eq_of_no_deps fsLinW cfgW "/r/sub/c.ts".data "/r/b.ts".data (by decide) h)
      (by decide))

set_option maxRecDepth 100000 in
/-- Counterexample to C3 as stated: in the two-file cycle, `b.ts` imports
`a.ts` and both are in the build order, but the dependency `a.ts` has the
larger index — the unqualified dependency-before-dependent property fails
on cyclic edges. -/
theorem c3_counterexample :
    Edge fsCycW cfgW "/r/b.ts".data "/r/a.ts".data ∧
    "/r/b.ts".data ∈ (walk fsCycW cfgW cfgW.entryFile).order ∧
    "/r/a.ts".data ∈ (walk fsCycW cfgW cfgW.entryFile).order ∧
    ¬ (idxOf "/r/a.ts".data (walk fsCycW cfgW cfgW.entryFile).order <
        idxOf "/r/b.ts".data (walk fsCycW cfgW cfgW.entryFile).order) :=
  ⟨by decide, by decide, by decide, by decide⟩

/-- Claim C4: for every filesystem, configuration and entry — in particular
in the presence of cycles and diamonds — each distinct file path appears at
most once in the build order. -/
theorem c4_no_duplication (fs : FS) (cfg : Config) (entry : FPath) :
    (walk fs cfg entry).order.Nodup := by
  obtain ⟨-, Δ, ho, -, hnd, -⟩ := walkAux_delta fs cfg (totalFuel fs) entry ⟨[], [], []⟩
  have h2 : (walk fs cfg entry).order = [] ++ Δ := ho
  rw [h2]
  simpa using hnd

/-- Claim C5: if the collected resource documents all parse and have
pairwise-disjoint (and internally duplicate-free) top-level key sets, the
merge succeeds with exactly their concatenated fields — the union of the
keys, each key's full value subtree unchanged; if a document has a
top-level key already contributed by the documents merged before it, the
merge aborts with a duplicate-key error naming a conflicting key and that
document's path, and never returns a silently-overwritten result. -/
theorem c5_strings_merge (fs : FS) (order : List FPath)
    (docs : List (FPath × Option Json)) (hdocs : collectDocs fs order = docs) :
    ((∀ d ∈ docs, ∃ j, d.2 = some j) →
      (∀ d ∈ docs, (docKeys d).Nodup) →
      List.Pairwise (fun d e => ∀ k ∈ docKeys d, k ∉ docKeys e) docs →
      processStrings fs order = .ok (flatDocs docs)) ∧
    (∀ pre p j rest, docs = pre ++ (p, some j) :: rest →
      (∀ d ∈ pre, ∃ j2, d.2 = some j2) →
      (∀ d ∈ pre, (docKeys d).Nodup) →
      List.Pairwise (fun d e => ∀ k ∈ docKeys d, k ∉ docKeys e) pre →
      ((topFields j).map Prod.fst).Nodup →
      (∃ k ∈ (topFields j).map Prod.fst, k ∈ (flatDocs pre).map Prod.fst) →
      ∃ k, processStrings fs order = .error (.dupKey k p) ∧
        k ∈ (topFields j).map Prod.fst ∧ k ∈ (flatDocs pre).map Prod.fst) := by
  constructor
  · intro hp hnd hpair
    unfold processStrings
    rw [hdocs]
    have h2 := mergeDocs_append docs [] [] hp hnd
      (fun d _ k hk => List.not_mem_nil k) hpair
    rw [List.append_nil] at h2
    rw [h2]
    rfl
  · intro pre p j rest hsplit hp hnd hpair hjnd hconf
    unfold processStrings
    rw [hdocs, hsplit]
    exact mergeDocs_conflict pre p j rest hp hnd hpair hjnd hconf

/-- Witness for C5: the disjoint two-document fixture merges to the union
of its documents; the `shared`-key fixture aborts blaming the later
document `/r/strings.json`. -/
theorem c5_witness :
    processStrings fsStrW (walk fsStrW cfgW cfgW.entryFile).order =
      .ok (flatDocs
        [("/r/sub/b.strings.json".data, some (Json.obj [("y".data, Json.num 2)])),
          ("/r/strings.json".data, some (Json.obj [("x".data, Json.num 1)]))]) ∧
    ∃ k, processStrings fsDupW (walk fsDupW cfgW cfgW.entryFile).order =
        .error (.dupKey k "/r/strings.json".data) ∧
      k ∈ (topFields (Json.obj [("shared".data, Json.num 1)])).map Prod.fst ∧
      k ∈ (flatDocs
        [("/r/sub/b.strings.json".data, some (Json.obj [("shared".data, Json.num 2)]))]).map
          Prod.fst := by
  constructor
  · exact (c5_strings_merge fsStrW (walk fsStrW cfgW cfgW.entryFile).order
      [("/r/sub/b.strings.json".data, some (Json.obj [("y".data, Json.num 2)])),
        ("/r/strings.json".data, some (Json.obj [("x".data, Json.num 1)]))] rfl).1
      (by
        intro d hd
        rcases List.mem_cons.mp hd with rfl | hd
        · exact ⟨_, rfl⟩
        · rcases List.mem_cons.mp hd with rfl | hd
          · exact ⟨_, rfl⟩
          · cases hd)
      (by
        intro d hd
        rcases List.mem_cons.mp hd with rfl | hd
        · decide
        · rcases List.mem_cons.mp hd with rfl | hd
          · decide
          · cases hd)
      (by
        refine List.Pairwise.cons ?_ ?_
        · intro e he
          rcases List.mem_cons.mp he with rfl | he
          · decide
          · cases he
        · exact List.Pairwise.cons (fun e he => absurd he (List.not_mem_nil e))
            List.Pairwise.nil)
  · exact (c5_strings_merge fsDupW (walk fsDupW cfgW cfgW.entryFile).order
      [("/r/sub/b.strings.json".data, some (Json.obj [("shared".data, Json.num 2)])),
        ("/r/strings.json".data, some (Json.obj [("shared".data, Json.num 1)]))] rfl).2
      [("/r/sub/b.strings.json".data, some (Json.obj [("shared".data, Json.num 2)]))]
      "/r/strings.json".data (Json.obj [("shared".data, Json.num 1)]) [] rfl
      (by
        intro d hd
        rcases List.mem_cons.mp hd with rfl | hd
        · exact ⟨_, rfl⟩
        · cases hd)
      (by
        intro d hd
        rcases List.mem_cons.mp hd with rfl | hd
        · decide
        · cases hd)
      (List.Pairwise.cons (fun e he => absurd he (List.not_mem_nil e)) List.Pairwise.nil)
      (by decide)
      ⟨"shared".data, by decide, by decide⟩

/-- Claim C6: every fatal condition of the build — missing entry file,
resource-document parse failure, duplicate top-level resource key — yields
an error result, and whenever the result is an error, no write of either
artifact was performed.  In the source every fatal exit (lines 171, 150,
157) happens before the first `writeFileSync` (line 181). -/
theorem c6_fatal_no_writes (fs : FS) (cfg : Config) :
    (∀ e, (build fs cfg).result = .error e → (build fs cfg).writes = []) ∧
    (existsFile fs cfg.entryFile = false → (build fs cfg).result = .error .entryMissing) ∧
    (∀ e, existsFile fs cfg.entryFile = true →
      processStrings fs (walk fs cfg cfg.entryFile).order = .error e →
      (build fs cfg).result = .error (.merge e)) := by
  refine ⟨?_, ?_, ?_⟩
  · intro e h
    unfold build at h ⊢
    by_cases hex : existsFile fs cfg.entryFile = true
    · rw [if_neg (fun hc => hc hex)] at h ⊢
      rcases hps : processStrings fs (walk fs cfg cfg.entryFile).order with e2 | m
      · simp only [hps]
      · simp only [hps] at h
        simp at h
    · rw [if_pos hex] at h ⊢
  · intro hfalse
    have hne : ¬ (existsFile fs cfg.entryFile = true) := by
      rw [hfalse]
      exact Bool.false_ne_true
    unfold build
    rw [if_pos hne]
  · intro e hex hps
    unfold build
    rw [if_neg (fun hc => hc hex)]
    simp only [hps]

/-- Witness for C6: the missing-entry fixture and the duplicate-key fixture
both write nothing. -/
theorem c6_witness :
    (build fsNoEntryW cfgW).writes = [] ∧ (build fsDupW cfgW).writes = [] :=
  ⟨(c6_fatal_no_writes fsNoEntryW cfgW).1 .entryMissing rfl,
    (c6_fatal_no_writes fsDupW cfgW).1
      (.merge (.dupKey "shared".data "/r/strings.json".data)) rfl⟩

/-- Claim C7: for every non-ignored specifier the resolver returns exactly
the first existing candidate of, in order, the base path, base + `.ts`,
base + `/index.ts`, base + `.d.ts`, where the base path is the
importing-directory resolution for specifiers beginning with `.` and the
project `node_modules` resolution otherwise. -/
theorem c7_resolution_order (fs : FS) (cfg : Config) (importPath dir : FPath)
    (h : importPath ∉ EXTERNAL_MODULES) :
    (resolveImport fs cfg importPath dir).1 =
      (resolveCandidates cfg importPath dir).find? (fun c => existsFile fs c) ∧
    resolveCandidates cfg importPath dir =
      [targetOf cfg importPath dir, targetOf cfg importPath dir ++ ".ts".data,
        targetOf cfg importPath dir ++ "/index.ts".data,
        targetOf cfg importPath dir ++ ".d.ts".data] ∧
    targetOf cfg importPath dir =
      (if importPath.head? = some '.' then pathResolve dir importPath
        else pathResolve (pathResolve cfg.projectRoot "node_modules".data) importPath) := by
  refine ⟨?_, rfl, rfl⟩
  unfold resolveImport
  rw [if_neg h]
  by_cases h0 : existsFile fs (targetOf cfg importPath dir) = true
  · simp [h0, resolveCandidates, List.find?]
  · by_cases h1 : existsFile fs (targetOf cfg importPath dir ++ ".ts".data) = true
    · simp [h0, h1, resolveCandidates, List.find?, tryExts, extensions]
    · by_cases h2 : existsFile fs (targetOf cfg importPath dir ++ "/index.ts".data) = true
      · simp [h0, h1, h2, resolveCandidates, List.find?, tryExts, extensions]
      · by_cases h3 : existsFile fs (targetOf cfg importPath dir ++ ".d.ts".data) = true
        · simp [h0, h1, h2, h3, resolveCandidates, List.find?, tryExts, extensions]
        · simp [h0, h1, h2, h3, resolveCandidates, List.find?, tryExts, extensions]

set_option maxRecDepth 100000 in
/-- Witness for C7: resolving `./b` from `/r` in the linear fixture. -/
theorem c7_witness :
    (resolveImport fsLinW cfgW "./b".data "/r".data).1 =
      (resolveCandidates cfgW "./b".data "/r".data).find?
        (fun c => existsFile fsLinW c) ∧
    resolveCandidates cfgW "./b".data "/r".data =
      [targetOf cfgW "./b".data "/r".data, targetOf cfgW "./b".data "/r".data ++ ".ts".data,
        targetOf cfgW "./b".data "/r".data ++ "/index.ts".data,
        targetOf cfgW "./b".data "/r".data ++ ".d.ts".data] ∧
    targetOf cfgW "./b".data "/r".data =
      (if ("./b".data : List Char).head? = some '.' then pathResolve "/r".data "./b".data
        else pathResolve (pathResolve cfgW.projectRoot "node_modules".data) "./b".data) :=
  c7_resolution_order fsLinW cfgW "./b".data "/r".data (by decide)

/-- Claim C8: an import that resolves to a declaration-only file (ending in
`.d.ts`) is skipped by the walker: the walker state is unchanged — so there
is no recursion into the file and nothing is appended — and consequently,
whenever the entry is not declaration-only, no element of the build order
ends in `.d.ts`. -/
theorem c8_declaration_skipped :
    (∀ (fs : FS) (cfg : Config) (fuel : Nat) (spec : FPath) (rest : List FPath)
      (dir : FPath) (st : WalkSt) (ap : FPath),
      (resolveImport fs cfg spec dir).1 = some ap → isDecl ap = true →
      walkImports fs cfg fuel (spec :: rest) dir st =
        walkImports fs cfg fuel rest dir st) ∧
    (∀ (fs : FS) (cfg : Config) (entry : FPath), isDecl entry = false →
      ∀ q ∈ (walk fs cfg entry).order, isDecl q = false) := by
  constructor
  · intro fs cfg fuel spec rest dir st ap hres hdecl
    rw [walkImports_cons_decl fs cfg fuel spec rest dir st ap hres hdecl,
      resolveImport_some_warns fs cfg spec dir ap hres]
    simp
  · intro fs cfg entry hentry q hq
    exact walkAux_no_decl fs cfg (totalFuel fs) entry ⟨[], [], []⟩ hentry
      (fun q2 hq2 => absurd hq2 (List.not_mem_nil q2)) q hq

set_option maxRecDepth 100000 in
/-- Witness for C8: the `./t` import of the declaration fixture resolves to
`/r/t.d.ts` and is skipped; the fixture's build order has no `.d.ts` entry. -/
theorem c8_witness :
    walkImports fsDeclW cfgW 1 ["./t".data] "/r".data ⟨["/r/a.ts".data], [], []⟩ =
      walkImports fsDeclW cfgW 1 [] "/r".data ⟨["/r/a.ts".data], [], []⟩ ∧
    ∀ q ∈ (walk fsDeclW cfgW cfgW.entryFile).order, isDecl q = false :=
  ⟨c8_declaration_skipped.1 fsDeclW cfgW 1 "./t".data [] "/r".data
      ⟨["/r/a.ts".data], [], []⟩ "/r/t.d.ts".data (by decide) (by decide),
    c8_declaration_skipped.2 fsDeclW cfgW cfgW.entryFile (by decide)⟩

/-- Claim C9 (amended): applying the statement stripper to a text in which
none of the four removal patterns matches is a no-op.  Stripping is not
idempotent in general — removing a matched statement can splice the
surrounding text into a new import statement that only a second application
would remove (see the counterexample) — so the amended claim restricts the
no-op property to texts with no residual match. -/
theorem c9_strip_noop (t : List Char)
    (h1 : hasMatch stripRe1 t = false) (h2 : hasMatch stripRe2 t = false)
    (h3 : hasMatch stripRe3 t = false) (h4 : hasMatch stripRe4 t = false) :
    strip t = t := by
  unfold strip
  rw [replaceAll_of_no_match stripRe1 t h1, replaceAll_of_no_match stripRe2 t h2,
    replaceAll_of_no_match stripRe3 t h3, replaceAll_of_no_match stripRe4 t h4]

set_option maxRecDepth 100000 in
/-- Witness for C9: plain declaration text is untouched by the stripper. -/
theorem c9_witness : strip plainText = plainText :=
  c9_strip_noop plainText (by decide) (by decide) (by decide) (by decide)

set_option maxRecDepth 1000000 in
/-- Counterexample to C9 as stated: stripping the seam fixture once leaves
the spliced statement `import x from "q";`, which a second application
removes — `strip` is not idempotent. -/
theorem c9_counterexample : strip (strip seamText) ≠ strip seamText := by decide

/-- Claim C10: when the entry file exists, it is the last element of the
build order, and every file transitively reachable from it through resolved
non-declaration imports is in the build order (hence recorded before it). -/
theorem c10_entry_last (fs : FS) (cfg : Config) (entry : FPath)
    (hex : existsFile fs entry = true) :
    (walk fs cfg entry).order.getLast? = some entry ∧
    ∀ v, Reaches fs cfg entry v → v ∈ (walk fs cfg entry).order := by
  constructor
  · show (walkAux fs cfg (totalFuel fs) entry ⟨[], [], []⟩).order.getLast? = some entry
    rw [show totalFuel fs = fs.files.length + 1 from rfl,
      walkAux_new fs cfg fs.files.length entry ⟨[], [], []⟩ (List.not_mem_nil entry)]
    exact List.getLast?_concat _
  · obtain ⟨-, -, ⟨hnd, hsub, hdeps, hord⟩, hpv, hK4⟩ := walk_spec fs cfg entry hex
    have horder : ∀ x, x ∈ (walk fs cfg entry).visited → x ∈ (walk fs cfg entry).order := by
      intro x hx
      by_contra hno
      obtain ⟨hc, -⟩ := hK4 x hx hno
      exact absurd hc (List.not_mem_nil x)
    intro v hv
    induction hv with
    | refl => exact horder entry hpv
    | tail hab hbc ih => exact horder _ (hdeps _ ih _ hbc)

set_option maxRecDepth 100000 in
/-- Witness for C10 on the linear fixture. -/
theorem c10_witness :
    (walk fsLinW cfgW cfgW.entryFile).order.getLast? = some cfgW.entryFile ∧
    ∀ v, Reaches fsLinW cfgW cfgW.entryFile v →
      v ∈ (walk fsLinW cfgW cfgW.entryFile).order :=
  c10_entry_last fsLinW cfgW cfgW.entryFile (by decide)
